import Mathlib

/-!
Verification development for the Alignment Result Reconstruction Engine of
the sayjong content-creation pipeline (`SongTimingService`): the tokenizer
`refineTextForPython`, the segmenter loop of `getSyllableTimings`, and the
syllable interpolator of `generateFallback`.

Modelling conventions:
* JavaScript strings are embedded as `List Char`;
* JavaScript numbers holding timestamps are embedded as `ℚ` (the spec's
  interpolation arithmetic is stated in exact rationals);
* the external process boundary of `executeAlignment` (exit code, stdout) is
  embedded by the exit code together with the parsed shape of the stdout
  payload, mirroring the branch structure of the close handler.
-/

namespace SongTiming

/-- The character class `[가-힣]` (one precomposed Korean syllable block,
U+AC00 .. U+D7A3). -/
def isKoreanSyllable (c : Char) : Bool :=
  0xAC00 ≤ c.toNat && c.toNat ≤ 0xD7A3

/-- The JavaScript `\s` character class (whitespace), as used by the
tokenizer regex `[가-힣]|[^가-힣\s]+`. -/
def isJsWhitespace (c : Char) : Bool :=
  c = ' ' || c = '\t' || c = '\n' || c.toNat = 0x0B || c.toNat = 0x0C ||
  c = '\r' || c.toNat = 0xA0 || c.toNat = 0x1680 ||
  (0x2000 ≤ c.toNat && c.toNat ≤ 0x200A) ||
  c.toNat = 0x2028 || c.toNat = 0x2029 || c.toNat = 0x202F ||
  c.toNat = 0x205F || c.toNat = 0x3000 || c.toNat = 0xFEFF

/-- The sentinel inserted between lines: `LINE_SEPARATOR = "||LINE_BREAK||"`. -/
def LINE_SEPARATOR : List Char := "||LINE_BREAK||".data

/-- One row of the `lyric_line` table as read by the engine; of its columns
only `original_text` is ever consulted by the reconstruction code. -/
structure LyricLineRow where
  original_text : List Char
deriving DecidableEq, Repr

/-- `interface SyllableTiming { timeSeconds: number; markName: string }`. -/
structure SyllableTiming where
  timeSeconds : ℚ
  markName : List Char
deriving DecidableEq, Repr

/-- `interface LyricWithTimings { originalText; refinedText; timings }`. -/
structure LyricWithTimings where
  originalText : List Char
  refinedText : List Char
  timings : List SyllableTiming
deriving DecidableEq, Repr

/-- `interface PythonTimingResult { word: string; start: number; end: number }`
(the TS field `end` is a reserved word in Lean, rendered `stop`). -/
structure PythonTimingResult where
  word : List Char
  start : ℚ
  stop : ℚ
deriving DecidableEq, Repr

/-- JavaScript `Array.prototype.join(" ")`. -/
def joinSpace (l : List (List Char)) : List Char :=
  (l.intersperse [' ']).flatten

/-! ## Tokenizer: `refineTextForPython`

The regex `/[가-힣]|[^가-힣\s]+/g` is applied by global scan: at each
position a single Korean syllable matches as one token, otherwise a maximal
run of characters that are neither Korean syllables nor whitespace matches
as one token, and whitespace is skipped.  `matchAux` carries the (reversed)
run of non-Korean non-whitespace characters accumulated so far. -/

def flushRun (cur : List Char) : List (List Char) :=
  if cur.isEmpty then [] else [cur.reverse]

def matchAux (cur : List Char) : List Char → List (List Char)
  | [] => flushRun cur
  | c :: rest =>
    if isKoreanSyllable c then
      flushRun cur ++ [c] :: matchAux [] rest
    else if isJsWhitespace c then
      flushRun cur ++ matchAux [] rest
    else
      matchAux (c :: cur) rest

/-- The token list produced by `text.match(/[가-힣]|[^가-힣\s]+/g)`
(`[]` standing for the `null` result on a token-free line). -/
def matchKoreanTokens (s : List Char) : List (List Char) :=
  matchAux [] s

/-- `refineTextForPython`: tokenize and re-join with single spaces; a line
with no tokens yields the empty string. -/
def refineTextForPython (s : List Char) : List Char :=
  match matchKoreanTokens s with
  | [] => []
  | tokens => joinSpace tokens

/-! ## Segmenter: the scan loop of `getSyllableTimings` -/

/-- The LineTimingResult emitted for one original line from the current
buffer of word timings. -/
def mkLineResult (row : LyricLineRow) (buf : List SyllableTiming) :
    LyricWithTimings :=
  { originalText := row.original_text
    refinedText := joinSpace (buf.map (·.markName))
    timings := buf }

/-- The mutable scan state of the segmenter loop: `results`,
`currentLineTimings` and `lineIndex`. -/
structure SegState where
  results : List LyricWithTimings
  buffer : List SyllableTiming
  lineIndex : Nat
deriving DecidableEq, Repr

/-- One iteration of the `for (const pyResult of allPythonResults)` loop. -/
def segStep (lyrics : List LyricLineRow) (st : SegState)
    (t : PythonTimingResult) : SegState :=
  if t.word = LINE_SEPARATOR then
    { results := st.results ++
        (match lyrics[st.lineIndex]? with
          | some row => [mkLineResult row st.buffer]
          | none => [])
      buffer := []
      lineIndex := st.lineIndex + 1 }
  else if !t.word.isEmpty then
    { st with buffer := st.buffer ++ [⟨t.start, t.word⟩] }
  else
    st

/-- The full segmenter: scan all timed tokens, then flush a non-empty final
buffer when an input line is still available for it. -/
def segment (lyrics : List LyricLineRow) (tokens : List PythonTimingResult) :
    List LyricWithTimings :=
  let st := tokens.foldl (segStep lyrics) ⟨[], [], 0⟩
  st.results ++
    (if !st.buffer.isEmpty then
      match lyrics[st.lineIndex]? with
      | some row => [mkLineResult row st.buffer]
      | none => []
    else [])

/-! ## Alignment invocation boundary: `executeAlignment`

The close handler of the spawned process rejects on non-zero exit code;
otherwise it looks for a JSON array in stdout, rejecting when stdout holds
an `{ "error": ... }` object instead, when the parsed value is not an
array, or when no JSON payload can be parsed at all.  The stdout string is
embedded by its parsed shape. -/

inductive PyStdoutShape where
  | jsonArray (results : List PythonTimingResult)
  | jsonNonArray
  | errorObject (msg : List Char)
  | noJson
deriving DecidableEq, Repr

/-- The promise outcome of `executeAlignment`, as decided by the `close`
handler from the exit code and the stdout payload. -/
def executeAlignment (exitCode : Int) (stdout : PyStdoutShape) :
    Except (List Char) (List PythonTimingResult) :=
  if exitCode ≠ 0 then
    .error ("Python script failed with code ".data)
  else
    match stdout with
    | .jsonArray results => .ok results
    | .errorObject msg => .error ("Python script returned error: ".data ++ msg)
    | .jsonNonArray => .error ("Python stdout was not a JSON array.".data)
    | .noJson => .error ("Failed to parse Python JSON output".data)

/-- The empty-timing fallback entry produced for one lyric line when the
alignment invocation fails. -/
def emptyLineResult (l : LyricLineRow) : LyricWithTimings :=
  { originalText := l.original_text, refinedText := [], timings := [] }

/-- `getSyllableTimings` after the audio download: run the alignment; on
failure fall back to one empty result per input line, otherwise segment. -/
def getSyllableTimings (lyrics : List LyricLineRow) (exitCode : Int)
    (stdout : PyStdoutShape) : List LyricWithTimings :=
  match executeAlignment exitCode stdout with
  | .error _ => lyrics.map emptyLineResult
  | .ok allPythonResults => segment lyrics allPythonResults

/-! ## Syllable interpolator: the refinement map of `generateFallback`

`markName.split(/(?=[가-힣])/)` splits immediately before every Korean
syllable character except at position 0 (JavaScript `split` does not split
on a zero-width match at the start of the string). -/

def splitAux (cur : List Char) : List Char → List (List Char)
  | [] => [cur.reverse]
  | c :: rest =>
    if isKoreanSyllable c then cur.reverse :: splitAux [c] rest
    else splitAux (c :: cur) rest

/-- `s.split(/(?=[가-힣])/)` (`""` splits to `[""]` in JavaScript, but the
empty string yields `[]` after the `.filter(Boolean)` below either way, so
the empty input is sent directly to `[]`). -/
def splitBeforeKorean : List Char → List (List Char)
  | [] => []
  | c :: rest => splitAux [c] rest

/-- `timing.markName.split(/(?=[가-힣])/).filter(Boolean)`. -/
def syllablesOf (s : List Char) : List (List Char) :=
  (splitBeforeKorean s).filter (fun u => !u.isEmpty)

/-- The end-boundary resolution for a multi-syllable word: the next word's
start in the same line, else the first timing of the next line, else the
word's own start plus one second. -/
def resolveEnd (allLines : List LyricWithTimings) (lineIdx : Nat)
    (originTimings : List SyllableTiming) (wordIdx : Nat)
    (startTime : ℚ) : ℚ :=
  match originTimings[wordIdx + 1]? with
  | some nextWord => nextWord.timeSeconds
  | none =>
    match allLines[lineIdx + 1]? with
    | some nextLine =>
      match nextLine.timings with
      | t0 :: _ => t0.timeSeconds
      | [] => startTime + 1
    | none => startTime + 1

/-- The body of the `flatMap` callback: a word with at most one syllable
unit passes through unchanged; otherwise it is expanded into one timing per
syllable unit at evenly spaced offsets. -/
def expandWord (allLines : List LyricWithTimings) (lineIdx : Nat)
    (originTimings : List SyllableTiming) (wordIdx : Nat)
    (timing : SyllableTiming) : List SyllableTiming :=
  let syllables := syllablesOf timing.markName
  let syllableCount := syllables.length
  if syllableCount ≤ 1 then [timing]
  else
    let startTime := timing.timeSeconds
    let endTime := resolveEnd allLines lineIdx originTimings wordIdx startTime
    let duration := max 0 (endTime - startTime)
    let syllableDuration := duration / (syllableCount : ℚ)
    syllables.mapIdx (fun sIdx syl =>
      ⟨startTime + syllableDuration * (sIdx : ℚ), syl⟩)

/-- The per-line body of `resultWithTimings.map`: flat-map every word
through `expandWord` and rebuild `refinedText` from the refined timings. -/
def interpolateLine (allLines : List LyricWithTimings) (lineIdx : Nat)
    (result : LyricWithTimings) : LyricWithTimings :=
  let refinedTimings :=
    (result.timings.mapIdx (fun wordIdx timing =>
      expandWord allLines lineIdx result.timings wordIdx timing)).flatten
  { originalText := result.originalText
    refinedText := joinSpace (refinedTimings.map (·.markName))
    timings := refinedTimings }

/-- The whole interpolation pass of `generateFallback` over the segmenter's
output. -/
def interpolate (resultWithTimings : List LyricWithTimings) :
    List LyricWithTimings :=
  resultWithTimings.mapIdx (fun lineIdx result =>
    interpolateLine resultWithTimings lineIdx result)

/-- Number of separator tokens in a timed-token stream. -/
def sepCount (tokens : List PythonTimingResult) : Nat :=
  tokens.countP (fun t => decide (t.word = LINE_SEPARATOR))

/-! ## Structural lemmas about the syllable split -/

theorem splitAux_flatten (l : List Char) :
    ∀ cur, (splitAux cur l).flatten = cur.reverse ++ l := by
  induction l with
  | nil => intro cur; simp [splitAux]
  | cons c rest ih =>
    intro cur
    by_cases hc : isKoreanSyllable c
    · simp [splitAux, hc, ih]
    · simp [splitAux, hc, ih]

theorem splitAux_of_no_korean (l : List Char) :
    ∀ cur, (∀ x ∈ l, isKoreanSyllable x = false) →
      splitAux cur l = [cur.reverse ++ l] := by
  induction l with
  | nil => intro cur _; simp [splitAux]
  | cons c rest ih =>
    intro cur h
    have hc : isKoreanSyllable c = false := h c (by simp)
    have hrest : ∀ x ∈ rest, isKoreanSyllable x = false := by
      intro x hx; exact h x (by simp [hx])
    simp [splitAux, hc, ih (c :: cur) hrest]

/-- Every unit produced by `splitAux` consists of a head character followed
by a run of non-Korean characters, provided the accumulated current group
has that shape. -/
theorem splitAux_mem_shape (l : List Char) :
    ∀ cur d t, cur.reverse = d :: t →
      (∀ x ∈ t, isKoreanSyllable x = false) →
      ∀ u ∈ splitAux cur l,
        ∃ d2 r, u = d2 :: r ∧ ∀ x ∈ r, isKoreanSyllable x = false := by
  induction l with
  | nil =>
    intro cur d t hrev ht u hu
    simp [splitAux] at hu
    exact ⟨d, t, by rw [hu, hrev], ht⟩
  | cons c rest ih =>
    intro cur d t hrev ht u hu
    by_cases hc : isKoreanSyllable c
    · simp only [splitAux, hc, if_true, List.mem_cons] at hu
      rcases hu with hu | hu
      · exact ⟨d, t, by rw [hu, hrev], ht⟩
      · exact ih [c] c [] rfl (by simp) u hu
    · simp only [splitAux, hc, if_false, Bool.false_eq_true] at hu
      refine ih (c :: cur) d (t ++ [c]) ?_ ?_ u hu
      · simp [hrev]
      · intro x hx
        rcases List.mem_append.mp hx with hx | hx
        · exact ht x hx
        · simp only [List.mem_singleton] at hx
          subst hx; simpa using hc

/-- When the accumulated current group starts with a Korean syllable, every
unit produced by `splitAux` starts with a Korean syllable. -/
theorem splitAux_mem_korean_head (l : List Char) :
    ∀ cur d t, cur.reverse = d :: t → isKoreanSyllable d = true →
      ∀ u ∈ splitAux cur l, ∃ d2 r, u = d2 :: r ∧ isKoreanSyllable d2 = true := by
  induction l with
  | nil =>
    intro cur d t hrev hd u hu
    simp [splitAux] at hu
    exact ⟨d, t, by rw [hu, hrev], hd⟩
  | cons c rest ih =>
    intro cur d t hrev hd u hu
    by_cases hc : isKoreanSyllable c
    · simp only [splitAux, hc, if_true, List.mem_cons] at hu
      rcases hu with hu | hu
      · exact ⟨d, t, by rw [hu, hrev], hd⟩
      · exact ih [c] c [] rfl (by simpa using hc) u hu
    · simp only [splitAux, hc, if_false, Bool.false_eq_true] at hu
      exact ih (c :: cur) d (t ++ [c]) (by simp [hrev]) hd u hu

/-- Every unit of `splitAux` after the first one starts with a Korean
syllable (the split happens immediately before each Korean character). -/
theorem splitAux_tail_korean_head (l : List Char) :
    ∀ cur, ∀ u ∈ (splitAux cur l).tail,
      ∃ d2 r, u = d2 :: r ∧ isKoreanSyllable d2 = true := by
  induction l with
  | nil => intro cur u hu; simp [splitAux] at hu
  | cons c rest ih =>
    intro cur u hu
    by_cases hc : isKoreanSyllable c
    · simp only [splitAux, hc, if_true, List.tail_cons] at hu
      exact splitAux_mem_korean_head rest [c] c [] rfl (by simpa using hc) u hu
    · simp only [splitAux, hc, if_false, Bool.false_eq_true] at hu
      exact ih (c :: cur) u hu

theorem syllablesOf_eq_split (s : List Char) :
    syllablesOf s = splitBeforeKorean s := by
  cases s with
  | nil => rfl
  | cons c rest =>
    unfold syllablesOf splitBeforeKorean
    refine List.filter_eq_self.mpr ?_
    intro u hu
    obtain ⟨d2, r, rfl, -⟩ := splitAux_mem_shape rest [c] c [] rfl (by simp) u hu
    simp

theorem syllablesOf_flatten (s : List Char) : (syllablesOf s).flatten = s := by
  rw [syllablesOf_eq_split]
  cases s with
  | nil => rfl
  | cons c rest => simpa using splitAux_flatten rest [c]

theorem syllablesOf_mem_shape (s : List Char) :
    ∀ u ∈ syllablesOf s,
      ∃ d r, u = d :: r ∧ ∀ x ∈ r, isKoreanSyllable x = false := by
  rw [syllablesOf_eq_split]
  cases s with
  | nil => intro u hu; simp [splitBeforeKorean] at hu
  | cons c rest =>
    intro u hu
    exact splitAux_mem_shape rest [c] c [] rfl (by simp) u hu

theorem syllablesOf_of_no_korean (s : List Char) (hne : s ≠ [])
    (h : ∀ c ∈ s, isKoreanSyllable c = false) : syllablesOf s = [s] := by
  rw [syllablesOf_eq_split]
  cases s with
  | nil => exact absurd rfl hne
  | cons c rest =>
    unfold splitBeforeKorean
    have := splitAux_of_no_korean rest [c]
      (fun x hx => h x (by simp [hx]))
    simpa using this

/-- Re-splitting any syllable unit gives back exactly that unit. -/
theorem syllablesOf_mem_resplit (s : List Char) :
    ∀ u ∈ syllablesOf s, syllablesOf u = [u] := by
  intro u hu
  obtain ⟨d, r, rfl, hr⟩ := syllablesOf_mem_shape s u hu
  rw [syllablesOf_eq_split]
  unfold splitBeforeKorean
  simpa using splitAux_of_no_korean r [d] hr

/-- C1 counterexample input: in `"a가"` the non-Korean run `"a"` forms a
syllable unit of its own rather than staying attached to the following
Korean block. -/
theorem c1_attachment_counterexample :
    syllablesOf "a가".data = [['a'], ['가']] ∧
      syllablesOf "a가".data ≠ [['a', '가']] := by
  constructor
  · decide
  · decide

/-- C1 (amended): `markName` is segmented by splitting immediately before
each Korean syllable block: the units concatenate back to the original
string, every unit after the first starts with a Korean syllable, no unit
contains a Korean syllable after its head (so a non-Korean run immediately
preceding a Korean block ends the unit before that block instead of
attaching to it), and a markName with no Korean syllable block yields
exactly one unit. -/
theorem c1_syllable_segmentation (s : List Char) :
    (syllablesOf s).flatten = s ∧
    (∀ u ∈ (syllablesOf s).tail, ∃ d r, u = d :: r ∧ isKoreanSyllable d = true) ∧
    (∀ u ∈ syllablesOf s, ∀ d r, u = d :: r → ∀ x ∈ r, isKoreanSyllable x = false) ∧
    (s ≠ [] → (∀ c ∈ s, isKoreanSyllable c = false) → syllablesOf s = [s]) := by
  refine ⟨syllablesOf_flatten s, ?_, ?_, syllablesOf_of_no_korean s⟩
  · intro u hu
    rw [syllablesOf_eq_split] at hu
    cases s with
    | nil => simp [splitBeforeKorean] at hu
    | cons c rest => exact splitAux_tail_korean_head rest [c] u hu
  · intro u hu d r hdr x hx
    obtain ⟨d2, r2, heq, hr2⟩ := syllablesOf_mem_shape s u hu
    rw [hdr] at heq
    rcases List.cons_eq_cons.mp heq with ⟨-, hr⟩
    exact hr2 x (hr ▸ hx)

/-- Witness for the amended C1 at concrete inputs. -/
theorem c1_syllable_segmentation_witness :
    (syllablesOf "a가나x".data).flatten = "a가나x".data ∧
      syllablesOf "ab".data = ["ab".data] := by
  exact ⟨(c1_syllable_segmentation "a가나x".data).1,
    (c1_syllable_segmentation "ab".data).2.2.2 (by decide) (by decide)⟩

/-! ## C2: interpolation arithmetic -/

/-- C2: an expanded word with syllable count `k > 1`, start `s` and resolved
end boundary `e` yields exactly `k` SyllableTiming entries with
`timeSeconds = s + (max 0 (e - s) / k) * i` carrying the `i`-th syllable
unit; in particular `{timeSeconds: 1.0, markName: "마시고"}` followed by a
word starting at `2.0` yields `1`, `4/3`, `5/3` for `마`, `시`, `고`. -/
theorem c2_interpolation_arithmetic :
    (∀ (allLines : List LyricWithTimings) (lineIdx : Nat)
        (originTimings : List SyllableTiming) (wordIdx : Nat)
        (timing : SyllableTiming),
      1 < (syllablesOf timing.markName).length →
      (expandWord allLines lineIdx originTimings wordIdx timing).length =
          (syllablesOf timing.markName).length ∧
        ∀ i : Fin (syllablesOf timing.markName).length,
          (expandWord allLines lineIdx originTimings wordIdx timing)[(i : Nat)]? =
            some ⟨timing.timeSeconds +
                max 0 (resolveEnd allLines lineIdx originTimings wordIdx
                      timing.timeSeconds - timing.timeSeconds) /
                  ((syllablesOf timing.markName).length : ℚ) * ((i : Nat) : ℚ),
              (syllablesOf timing.markName).get i⟩) ∧
    interpolate [⟨"마시고 x".data, "".data, [⟨1, "마시고".data⟩, ⟨2, "x".data⟩]⟩] =
      [⟨"마시고 x".data, "마 시 고 x".data,
        [⟨1, "마".data⟩, ⟨4/3, "시".data⟩, ⟨5/3, "고".data⟩, ⟨2, "x".data⟩]⟩] := by
  constructor
  · intro allLines lineIdx originTimings wordIdx timing hk
    have hnot : ¬ (syllablesOf timing.markName).length ≤ 1 := Nat.not_le.mpr hk
    constructor
    · simp [expandWord, hnot]
    · intro i
      simp only [expandWord, hnot, if_false]
      rw [List.getElem?_mapIdx, List.getElem?_eq_getElem i.isLt]
      simp [List.get_eq_getElem]
  · simp +decide only [interpolate, interpolateLine, expandWord, resolveEnd,
      syllablesOf, splitBeforeKorean, splitAux, isKoreanSyllable, joinSpace,
      List.mapIdx_cons, List.mapIdx_nil, List.filter, List.flatten,
      List.intersperse, List.map]
    norm_num

/-- Witness for C2 at a concrete expanded word. -/
theorem c2_interpolation_arithmetic_witness :
    1 < (syllablesOf "마시고".data).length ∧
      (expandWord [] 0 [⟨1, "마시고".data⟩, ⟨2, "x".data⟩] 0
          ⟨1, "마시고".data⟩).length = (syllablesOf "마시고".data).length :=
  ⟨by decide,
    (c2_interpolation_arithmetic.1 [] 0 [⟨1, "마시고".data⟩, ⟨2, "x".data⟩] 0
      ⟨1, "마시고".data⟩ (by decide)).1⟩

/-! ## C3: end-boundary resolution priority -/

/-- C3: the end boundary of a word is, in priority order, the next word's
start time in the same line, else the first timing of the immediately next
line when it exists and is non-empty, else the word's own start plus one
second; in particular the last word of the last line always gets a
synthetic one-second span. -/
theorem c3_end_boundary_priority (allLines : List LyricWithTimings)
    (lineIdx : Nat) (originTimings : List SyllableTiming) (wordIdx : Nat)
    (startTime : ℚ) :
    (∀ nextWord, originTimings[wordIdx + 1]? = some nextWord →
      resolveEnd allLines lineIdx originTimings wordIdx startTime =
        nextWord.timeSeconds) ∧
    (originTimings[wordIdx + 1]? = none →
      ∀ nextLine t0 rest, allLines[lineIdx + 1]? = some nextLine →
        nextLine.timings = t0 :: rest →
        resolveEnd allLines lineIdx originTimings wordIdx startTime =
          t0.timeSeconds) ∧
    (originTimings[wordIdx + 1]? = none →
      ∀ nextLine, allLines[lineIdx + 1]? = some nextLine →
        nextLine.timings = [] →
        resolveEnd allLines lineIdx originTimings wordIdx startTime =
          startTime + 1) ∧
    (originTimings[wordIdx + 1]? = none → allLines[lineIdx + 1]? = none →
      resolveEnd allLines lineIdx originTimings wordIdx startTime =
        startTime + 1) ∧
    (originTimings.length ≤ wordIdx + 1 → allLines.length ≤ lineIdx + 1 →
      resolveEnd allLines lineIdx originTimings wordIdx startTime =
        startTime + 1) := by
  refine ⟨?_, ?_, ?_, ?_, ?_⟩
  · intro nextWord h
    simp [resolveEnd, h]
  · intro h nextLine t0 rest hline htim
    simp [resolveEnd, h, hline, htim]
  · intro h nextLine hline htim
    simp [resolveEnd, h, hline, htim]
  · intro h hline
    simp [resolveEnd, h, hline]
  · intro h hline
    simp [resolveEnd, List.getElem?_eq_none h, List.getElem?_eq_none hline]

/-- Witness for C3: a dangling last word of the last line receives
`startTime + 1` as its end boundary. -/
theorem c3_end_boundary_priority_witness :
    resolveEnd [] 0 [] 0 (5 : ℚ) = 5 + 1 :=
  (c3_end_boundary_priority [] 0 [] 0 5).2.2.2.2 (by decide) (by decide)

/-! ## C5: failed alignment invocation falls back to empty per-line results -/

/-- C5: when the alignment process exits non-zero, returns an error-object
payload, or returns a payload that is not an array, the run yields exactly
one LineTimingResult per input lyric line with empty timings and empty
refinedText (and, the engine being a total function, no exception escapes). -/
theorem c5_invocation_failure_fallback (lyrics : List LyricLineRow)
    (exitCode : Int) (stdout : PyStdoutShape)
    (hfail : exitCode ≠ 0 ∨ (∃ msg, stdout = .errorObject msg) ∨
      stdout = .jsonNonArray) :
    getSyllableTimings lyrics exitCode stdout = lyrics.map emptyLineResult ∧
    (getSyllableTimings lyrics exitCode stdout).length = lyrics.length ∧
    ∀ r ∈ getSyllableTimings lyrics exitCode stdout,
      r.timings = [] ∧ r.refinedText = [] := by
  have hmap : getSyllableTimings lyrics exitCode stdout =
      lyrics.map emptyLineResult := by
    rcases hfail with h | ⟨msg, rfl⟩ | rfl
    · simp [getSyllableTimings, executeAlignment, h]
    · by_cases h0 : exitCode ≠ 0 <;> simp [getSyllableTimings, executeAlignment, h0]
    · by_cases h0 : exitCode ≠ 0 <;> simp [getSyllableTimings, executeAlignment, h0]
  refine ⟨hmap, by simp [hmap], ?_⟩
  intro r hr
  rw [hmap] at hr
  obtain ⟨l, -, rfl⟩ := List.mem_map.mp hr
  exact ⟨rfl, rfl⟩

/-- Witness for C5: the error payload `{ "error": "decode failed" }`. -/
theorem c5_invocation_failure_fallback_witness :
    getSyllableTimings [⟨"가사 줄".data⟩, ⟨"second line".data⟩] 0
        (.errorObject "decode failed".data) =
      [⟨"가사 줄".data, [], []⟩, ⟨"second line".data, [], []⟩] :=
  (c5_invocation_failure_fallback [⟨"가사 줄".data⟩, ⟨"second line".data⟩] 0
    (.errorObject "decode failed".data)
    (Or.inr (Or.inl ⟨"decode failed".data, rfl⟩))).1

/-! ## C6: the segmenter never produces more results than input lines -/

theorem seg_foldl_length_le (lyrics : List LyricLineRow)
    (tokens : List PythonTimingResult) :
    ∀ st : SegState, st.results.length ≤ st.lineIndex →
      st.results.length ≤ lyrics.length →
      (tokens.foldl (segStep lyrics) st).results.length ≤
          (tokens.foldl (segStep lyrics) st).lineIndex ∧
        (tokens.foldl (segStep lyrics) st).results.length ≤ lyrics.length := by
  induction tokens with
  | nil => intro st h1 h2; exact ⟨h1, h2⟩
  | cons t ts ih =>
    intro st h1 h2
    rw [List.foldl_cons]
    by_cases hsep : t.word = LINE_SEPARATOR
    · rcases hidx : lyrics[st.lineIndex]? with - | row
      · refine ih _ ?_ ?_ <;> simp [segStep, hsep, hidx] <;> omega
      · have hlt : st.lineIndex < lyrics.length :=
          List.getElem?_eq_some_iff.mp hidx |>.choose
        refine ih _ ?_ ?_ <;> simp [segStep, hsep, hidx] <;> omega
    · by_cases hempty : t.word.isEmpty
      · refine ih _ ?_ ?_ <;> simp [segStep, hsep, hempty, h1, h2]
      · refine ih _ ?_ ?_ <;> simp [segStep, hsep, hempty, h1, h2]

/-- C6: for every input line list and every timed-token stream whatsoever,
the segmenter returns at most as many LineTimingResult entries as there are
input lyric lines. -/
theorem c6_segment_length_le (lyrics : List LyricLineRow)
    (tokens : List PythonTimingResult) :
    (segment lyrics tokens).length ≤ lyrics.length := by
  unfold segment
  obtain ⟨h1, h2⟩ := seg_foldl_length_le lyrics tokens ⟨[], [], 0⟩
    (Nat.le_refl 0) (Nat.zero_le _)
  set st := tokens.foldl (segStep lyrics) ⟨[], [], 0⟩ with hst
  by_cases hbuf : st.buffer.isEmpty
  · simp [hbuf, h2]
  · rcases hidx : lyrics[st.lineIndex]? with - | row
    · simp [hbuf, hidx, h2]
    · have hlt : st.lineIndex < lyrics.length :=
        List.getElem?_eq_some_iff.mp hidx |>.choose
      simp only [hbuf, hidx, Bool.not_false, if_true, List.length_append,
        List.length_cons, List.length_nil]
      exact Nat.succ_le_of_lt (Nat.lt_of_le_of_lt h1 hlt)

/-! ## Fold lemmas for the segmenter scan -/

theorem seg_foldl_lineIndex (lyrics : List LyricLineRow)
    (tokens : List PythonTimingResult) :
    ∀ st : SegState, (tokens.foldl (segStep lyrics) st).lineIndex =
      st.lineIndex + sepCount tokens := by
  induction tokens with
  | nil => intro st; simp [sepCount]
  | cons t ts ih =>
    intro st
    rw [List.foldl_cons, ih]
    by_cases hsep : t.word = LINE_SEPARATOR
    · simp [segStep, hsep, sepCount, List.countP_cons]
      omega
    · by_cases hempty : t.word.isEmpty <;>
        simp [segStep, hsep, hempty, sepCount, List.countP_cons]

theorem seg_foldl_map_originalText (lyrics : List LyricLineRow)
    (tokens : List PythonTimingResult) :
    ∀ st : SegState, st.lineIndex + sepCount tokens ≤ lyrics.length →
      (tokens.foldl (segStep lyrics) st).results.map (·.originalText) =
        st.results.map (·.originalText) ++
          ((lyrics.drop st.lineIndex).take (sepCount tokens)).map
            (·.original_text) := by
  induction tokens with
  | nil => intro st _; simp [sepCount]
  | cons t ts ih =>
    intro st hle
    rw [List.foldl_cons]
    by_cases hsep : t.word = LINE_SEPARATOR
    · have hcount : sepCount (t :: ts) = sepCount ts + 1 := by
        simp [sepCount, List.countP_cons, hsep]
      have hlt : st.lineIndex < lyrics.length := by omega
      have hidx : lyrics[st.lineIndex]? = some lyrics[st.lineIndex] :=
        List.getElem?_eq_getElem hlt
      have hstep : segStep lyrics st t =
          ⟨st.results ++ [mkLineResult lyrics[st.lineIndex] st.buffer], [],
            st.lineIndex + 1⟩ := by
        simp [segStep, hsep, hidx]
      rw [hstep, ih _ (by simp; omega), hcount,
        List.drop_eq_getElem_cons hlt, List.take_succ_cons, List.map_cons,
        List.map_append, List.append_assoc]
      simp [mkLineResult]
    · have hcount : sepCount (t :: ts) = sepCount ts := by
        simp [sepCount, List.countP_cons, hsep]
      rw [hcount] at hle
      by_cases hempty : t.word.isEmpty
      · have hstep : segStep lyrics st t = st := by
          simp [segStep, hsep, hempty]
        rw [hstep, hcount]
        exact ih st hle
      · have hstep : segStep lyrics st t =
            ⟨st.results, st.buffer ++ [⟨t.start, t.word⟩], st.lineIndex⟩ := by
          simp [segStep, hsep, hempty]
        rw [hstep, hcount]
        exact ih _ (by simpa using hle)

theorem seg_foldl_no_sep (lyrics : List LyricLineRow)
    (tokens : List PythonTimingResult) :
    ∀ st : SegState, (∀ t ∈ tokens, t.word ≠ LINE_SEPARATOR) →
      (tokens.foldl (segStep lyrics) st).results = st.results ∧
      (tokens.foldl (segStep lyrics) st).lineIndex = st.lineIndex ∧
      (tokens.foldl (segStep lyrics) st).buffer = st.buffer ++
        (tokens.filter (fun t => !t.word.isEmpty)).map
          (fun t => ⟨t.start, t.word⟩) := by
  induction tokens with
  | nil => intro st _; simp
  | cons t ts ih =>
    intro st h
    have hsep : t.word ≠ LINE_SEPARATOR := h t (by simp)
    have hts : ∀ x ∈ ts, x.word ≠ LINE_SEPARATOR := fun x hx => h x (by simp [hx])
    rw [List.foldl_cons]
    by_cases hempty : t.word.isEmpty
    · have hstep : segStep lyrics st t = st := by simp [segStep, hsep, hempty]
      rw [hstep]
      obtain ⟨h1, h2, h3⟩ := ih st hts
      exact ⟨h1, h2, by simp [List.filter_cons, hempty, h3]⟩
    · have hstep : segStep lyrics st t =
          ⟨st.results, st.buffer ++ [⟨t.start, t.word⟩], st.lineIndex⟩ := by
        simp [segStep, hsep, hempty]
      rw [hstep]
      obtain ⟨h1, h2, h3⟩ := ih _ hts
      refine ⟨h1, h2, ?_⟩
      rw [h3]
      simp [List.filter_cons, hempty]

/-- C4: with `n` input lines and a timed-token stream of exactly `n - 1`
separators followed by at least one non-empty content token after the last
separator, the segmenter returns exactly `n` results carrying the input
lines' texts in order.  The stream is presented as `pre ++ post` where
`post` is the separator-free part after the last separator. -/
theorem c4_segmentation_count (lyrics : List LyricLineRow)
    (pre post : List PythonTimingResult)
    (h0 : 0 < lyrics.length)
    (hpost : ∀ t ∈ post, t.word ≠ LINE_SEPARATOR)
    (hsep : sepCount (pre ++ post) = lyrics.length - 1)
    (hcontent : ∃ t ∈ post, ¬ t.word.isEmpty) :
    (segment lyrics (pre ++ post)).length = lyrics.length ∧
    (segment lyrics (pre ++ post)).map (·.originalText) =
      lyrics.map (·.original_text) := by
  have hpost0 : sepCount post = 0 := by
    simp only [sepCount, List.countP_eq_zero]
    intro t ht
    simp [hpost t ht]
  have happ : sepCount (pre ++ post) = sepCount pre + sepCount post := by
    simp [sepCount, List.countP_append]
  have hpre : sepCount pre = lyrics.length - 1 := by
    rw [happ, hpost0] at hsep
    omega
  have hmain : (segment lyrics (pre ++ post)).map (·.originalText) =
      lyrics.map (·.original_text) := by
    unfold segment
    rw [List.foldl_append]
    set st1 := pre.foldl (segStep lyrics) ⟨[], [], 0⟩ with hst1
    obtain ⟨hres, hline, hbuf⟩ := seg_foldl_no_sep lyrics post st1 hpost
    have hline1 : st1.lineIndex = lyrics.length - 1 := by
      rw [hst1, seg_foldl_lineIndex, hpre]
      simp
    have hcond : (⟨[], [], 0⟩ : SegState).lineIndex + sepCount pre ≤
        lyrics.length := by
      show 0 + sepCount pre ≤ lyrics.length
      rw [hpre]
      omega
    have hmap1 : st1.results.map (·.originalText) =
        (lyrics.take (lyrics.length - 1)).map (·.original_text) := by
      rw [hst1, seg_foldl_map_originalText lyrics pre ⟨[], [], 0⟩ hcond]
      simp [hpre]
    obtain ⟨t, ht, htw⟩ := hcontent
    have hmemfil : t ∈ post.filter (fun t => !t.word.isEmpty) :=
      List.mem_filter.mpr ⟨ht, by simpa using htw⟩
    have hbufne : (post.foldl (segStep lyrics) st1).buffer ≠ [] := by
      rw [hbuf]
      intro hnil
      rcases List.append_eq_nil.mp hnil with ⟨-, hmap⟩
      rw [List.map_eq_nil_iff] at hmap
      rw [hmap] at hmemfil
      exact List.not_mem_nil t hmemfil
    have hlt : lyrics.length - 1 < lyrics.length := by omega
    have hidx : lyrics[(post.foldl (segStep lyrics) st1).lineIndex]? =
        some lyrics[lyrics.length - 1] := by
      rw [hline, hline1]
      exact List.getElem?_eq_getElem hlt
    have hbool : ((post.foldl (segStep lyrics) st1).buffer.isEmpty) = false := by
      cases hb : (post.foldl (segStep lyrics) st1).buffer with
      | nil => exact absurd hb hbufne
      | cons a l => simp
    rw [List.map_append, hres, hmap1, hbool]
    simp only [Bool.not_false, if_true, hidx]
    have hdrop : lyrics.drop (lyrics.length - 1) = [lyrics[lyrics.length - 1]] := by
      rw [List.drop_eq_getElem_cons hlt]
      congr 1
      have : lyrics.length - 1 + 1 = lyrics.length := by omega
      rw [this, List.drop_length]
    calc (lyrics.take (lyrics.length - 1)).map (·.original_text) ++
          [mkLineResult lyrics[lyrics.length - 1]
            (post.foldl (segStep lyrics) st1).buffer].map (·.originalText)
        = (lyrics.take (lyrics.length - 1)).map (·.original_text) ++
            (lyrics.drop (lyrics.length - 1)).map (·.original_text) := by
          rw [hdrop]; simp [mkLineResult]
      _ = lyrics.map (·.original_text) := by
          rw [← List.map_append, List.take_append_drop]
  refine ⟨?_, hmain⟩
  have := congrArg List.length hmain
  simpa using this

/-- Witness for C4: two lines, one separator, content on both sides. -/
theorem c4_segmentation_count_witness :
    (segment [⟨"불".data⟩, ⟨"장난".data⟩]
        ([⟨"불".data, 0, 1⟩, ⟨LINE_SEPARATOR, 1, 1⟩] ++
          [⟨"장난".data, 2, 3⟩])).length = 2 := by
  have h := c4_segmentation_count [⟨"불".data⟩, ⟨"장난".data⟩]
    [⟨"불".data, 0, 1⟩, ⟨LINE_SEPARATOR, 1, 1⟩] [⟨"장난".data, 2, 3⟩]
    (by decide) (by decide) (by decide) ⟨⟨"장난".data, 2, 3⟩, by decide⟩
  exact h.1

/-! ## C9: tokenization reversibility on Korean-and-space lines -/

theorem refineTextForPython_eq_joinSpace (s : List Char) :
    refineTextForPython s = joinSpace (matchKoreanTokens s) := by
  unfold refineTextForPython
  cases h : matchKoreanTokens s with
  | nil => simp [joinSpace]
  | cons a l => rfl

theorem matchAux_korean_space (s : List Char)
    (h : ∀ c ∈ s, isKoreanSyllable c = true ∨ c = ' ') :
    matchAux [] s = (s.filter isKoreanSyllable).map (fun c => [c]) := by
  induction s with
  | nil => rfl
  | cons c rest ih =>
    have hrest : ∀ x ∈ rest, isKoreanSyllable x = true ∨ x = ' ' :=
      fun x hx => h x (by simp [hx])
    rcases h c (by simp) with hc | hc
    · simp [matchAux, hc, flushRun, List.filter_cons, ih hrest]
    · subst hc
      simp [matchAux, flushRun, List.filter_cons, ih hrest, isKoreanSyllable,
        isJsWhitespace]

/-- C9: on a line made only of Korean syllable blocks and spaces, the
tokenizer produces one token per Korean syllable in original order
(whitespace discarded), so the space-joined output lists exactly the line's
Korean syllable characters. -/
theorem c9_tokenization_reversibility (s : List Char)
    (h : ∀ c ∈ s, isKoreanSyllable c = true ∨ c = ' ') :
    matchKoreanTokens s = (s.filter isKoreanSyllable).map (fun c => [c]) ∧
    refineTextForPython s =
      joinSpace ((s.filter isKoreanSyllable).map (fun c => [c])) := by
  have hm := matchAux_korean_space s h
  exact ⟨hm, by rw [refineTextForPython_eq_joinSpace, matchKoreanTokens, hm]⟩

/-- Witness for C9 at the line `"불 장 난"`. -/
theorem c9_tokenization_reversibility_witness :
    matchKoreanTokens "불 장 난".data = [['불'], ['장'], ['난']] ∧
      refineTextForPython "불 장 난".data = "불 장 난".data := by
  have h := c9_tokenization_reversibility "불 장 난".data (by decide)
  exact ⟨h.1, by rw [h.2]; decide⟩

/-! ## Generic helpers about `List.mapIdx` -/

theorem map_mapIdx_of_proj {α β γ : Type} (l : List α) (f : Nat → α → β)
    (g : β → γ) (G : α → γ) (h : ∀ i a, g (f i a) = G a) :
    (l.mapIdx f).map g = l.map G := by
  induction l generalizing f with
  | nil => simp
  | cons a t ih => simp [List.mapIdx_cons, h, ih]

theorem flatten_mapIdx_of_single {α : Type} (l : List α)
    (F : Nat → α → List α) (h : ∀ i a, l[i]? = some a → F i a = [a]) :
    (l.mapIdx F).flatten = l := by
  induction l generalizing F with
  | nil => simp
  | cons a t ih =>
    rw [List.mapIdx_cons, List.flatten_cons, h 0 a (by simp),
      ih (fun i => F (i + 1)) (fun i x hx => h (i + 1) x (by simpa using hx))]
    rfl

theorem mapIdx_id_of_fixed {α : Type} (l : List α) (f : Nat → α → α)
    (h : ∀ i a, l[i]? = some a → f i a = a) : l.mapIdx f = l := by
  induction l generalizing f with
  | nil => simp
  | cons a t ih =>
    rw [List.mapIdx_cons, h 0 a (by simp),
      ih (fun i => f (i + 1)) (fun i x hx => h (i + 1) x (by simpa using hx))]

theorem forall_mem_flatten_mapIdx {α β : Type} (l : List α)
    (F : Nat → α → List β) (P : β → Prop)
    (h : ∀ i a, l[i]? = some a → ∀ x ∈ F i a, P x) :
    ∀ x ∈ (l.mapIdx F).flatten, P x := by
  induction l generalizing F with
  | nil => simp
  | cons a t ih =>
    intro x hx
    rw [List.mapIdx_cons, List.flatten_cons] at hx
    rcases List.mem_append.mp hx with hx | hx
    · exact h 0 a (by simp) x hx
    · exact ih (fun i => F (i + 1))
        (fun i y hy => h (i + 1) y (by simpa using hy)) x hx

theorem forall_mem_mapIdx {α β : Type} (l : List α) (f : Nat → α → β)
    (P : β → Prop) (h : ∀ i a, l[i]? = some a → P (f i a)) :
    ∀ x ∈ l.mapIdx f, P x := by
  intro x hx
  obtain ⟨i, hi, rfl⟩ := List.mem_mapIdx.mp hx
  exact h i l[i] (List.getElem?_eq_getElem hi)

/-! ## C10: the interpolation step preserves characters and frames -/

theorem mapIdx_markName (l : List (List Char)) (time : Nat → ℚ) :
    (l.mapIdx (fun i syl => (⟨time i, syl⟩ : SyllableTiming))).map
      (·.markName) = l := by
  induction l generalizing time with
  | nil => simp
  | cons a t ih => simp [List.mapIdx_cons, ih (fun i => time (i + 1))]

theorem expandWord_markName_flatten (allLines : List LyricWithTimings)
    (lineIdx : Nat) (originTimings : List SyllableTiming) (wordIdx : Nat)
    (timing : SyllableTiming) :
    (((expandWord allLines lineIdx originTimings wordIdx timing).map
      (·.markName))).flatten = timing.markName := by
  unfold expandWord
  by_cases hk : (syllablesOf timing.markName).length ≤ 1
  · simp [hk]
  · simp only [hk, if_false]
    rw [mapIdx_markName]
    exact syllablesOf_flatten timing.markName

/-- C10: interpolation is character- and frame-preserving: the markNames
emitted for each word concatenate to exactly the word's original markName,
the number of lines is unchanged, and each line's originalText is
unchanged. -/
theorem c10_interpolation_preserving :
    (∀ (allLines : List LyricWithTimings) (lineIdx : Nat)
        (originTimings : List SyllableTiming) (wordIdx : Nat)
        (timing : SyllableTiming),
      ((expandWord allLines lineIdx originTimings wordIdx timing).map
        (·.markName)).flatten = timing.markName) ∧
    (∀ x : List LyricWithTimings,
      (interpolate x).map (·.originalText) = x.map (·.originalText)) ∧
    (∀ x : List LyricWithTimings, (interpolate x).length = x.length) := by
  refine ⟨expandWord_markName_flatten, ?_, ?_⟩
  · intro x
    unfold interpolate
    exact map_mapIdx_of_proj x _ _ (·.originalText) (fun i a => rfl)
  · intro x
    simp [interpolate]

/-! ## C7: interpolation is idempotent -/

theorem expandWord_single (allLines : List LyricWithTimings) (lineIdx : Nat)
    (originTimings : List SyllableTiming) (wordIdx : Nat)
    (timing : SyllableTiming)
    (hk : (syllablesOf timing.markName).length ≤ 1) :
    expandWord allLines lineIdx originTimings wordIdx timing = [timing] := by
  simp [expandWord, hk]

theorem expandWord_marks_le_one (allLines : List LyricWithTimings)
    (lineIdx : Nat) (originTimings : List SyllableTiming) (wordIdx : Nat)
    (timing : SyllableTiming) :
    ∀ t ∈ expandWord allLines lineIdx originTimings wordIdx timing,
      (syllablesOf t.markName).length ≤ 1 := by
  unfold expandWord
  by_cases hk : (syllablesOf timing.markName).length ≤ 1
  · simp only [hk, if_true]
    intro t ht
    simp only [List.mem_singleton] at ht
    subst ht
    exact hk
  · simp only [hk, if_false]
    refine forall_mem_mapIdx _ _ _ ?_
    intro i a ha
    have hmem : a ∈ syllablesOf timing.markName :=
      List.getElem?_mem ha
    have := syllablesOf_mem_resplit timing.markName a hmem
    simp [this]

theorem interpolateLine_marks_le_one (allLines : List LyricWithTimings)
    (lineIdx : Nat) (r : LyricWithTimings) :
    ∀ t ∈ (interpolateLine allLines lineIdx r).timings,
      (syllablesOf t.markName).length ≤ 1 := by
  unfold interpolateLine
  refine forall_mem_flatten_mapIdx _ _ _ ?_
  intro w tm hw
  exact expandWord_marks_le_one allLines lineIdx r.timings w tm

theorem interpolateLine_of_clean (allLines : List LyricWithTimings)
    (lineIdx : Nat) (r : LyricWithTimings)
    (h1 : ∀ t ∈ r.timings, (syllablesOf t.markName).length ≤ 1)
    (h2 : r.refinedText = joinSpace (r.timings.map (·.markName))) :
    interpolateLine allLines lineIdx r = r := by
  have htim : (r.timings.mapIdx (fun wordIdx timing =>
      expandWord allLines lineIdx r.timings wordIdx timing)).flatten =
      r.timings := by
    refine flatten_mapIdx_of_single _ _ ?_
    intro w tm hw
    exact expandWord_single allLines lineIdx r.timings w tm
      (h1 tm (List.getElem?_mem hw))
  unfold interpolateLine
  rw [htim]
  cases r with
  | mk a b c => simp_all

/-- C7: applying the interpolation pass a second time to its own output is
the identity: every markName it emits has syllable count at most one and
passes through unchanged. -/
theorem c7_interpolate_idempotent (x : List LyricWithTimings) :
    interpolate (interpolate x) = interpolate x := by
  conv_lhs => rw [interpolate]
  refine mapIdx_id_of_fixed _ _ ?_
  intro i r hr
  have hrmem : r ∈ interpolate x := List.getElem?_mem hr
  rw [interpolate] at hrmem
  obtain ⟨j, hj, hjr⟩ := List.mem_mapIdx.mp hrmem
  refine interpolateLine_of_clean _ _ _ ?_ ?_
  · rw [← hjr]
    exact interpolateLine_marks_le_one x j _
  · rw [← hjr]
    rfl

/-! ## C8: time-ordering is preserved by segmentation and interpolation -/

/-- Non-decreasing `timeSeconds` within a timing sequence. -/
def TimeSorted (l : List SyllableTiming) : Prop :=
  l.Pairwise (fun a b => a.timeSeconds ≤ b.timeSeconds)

theorem timeSorted_get_mono (l : List SyllableTiming) (h : TimeSorted l)
    (i j : Fin l.length) (hij : (i : Nat) ≤ (j : Nat)) :
    (l.get i).timeSeconds ≤ (l.get j).timeSeconds := by
  rcases Nat.lt_or_ge (i : Nat) (j : Nat) with hlt | hge
  · exact List.pairwise_iff_get.mp h i j (Fin.lt_def.mpr hlt)
  · have heq : i = j := Fin.ext (Nat.le_antisymm hij hge)
    rw [heq]

theorem expandWord_time_lb (allLines : List LyricWithTimings) (lineIdx : Nat)
    (originTimings : List SyllableTiming) (wordIdx : Nat)
    (timing : SyllableTiming) :
    ∀ t ∈ expandWord allLines lineIdx originTimings wordIdx timing,
      timing.timeSeconds ≤ t.timeSeconds := by
  by_cases hk : (syllablesOf timing.markName).length ≤ 1
  · simp only [expandWord, hk, if_true]
    intro t ht
    simp only [List.mem_singleton] at ht
    subst ht
    exact le_refl _
  · simp only [expandWord, hk, if_false]
    refine forall_mem_mapIdx _ _ _ ?_
    intro idx a ha
    have h1 : (0 : ℚ) ≤ max 0 (resolveEnd allLines lineIdx originTimings
        wordIdx timing.timeSeconds - timing.timeSeconds) := le_max_left _ _
    have h2 : (0 : ℚ) < ((syllablesOf timing.markName).length : ℚ) := by
      have : 0 < (syllablesOf timing.markName).length := by omega
      exact_mod_cast this
    have h3 : (0 : ℚ) ≤ max 0 (resolveEnd allLines lineIdx originTimings
        wordIdx timing.timeSeconds - timing.timeSeconds) /
          ((syllablesOf timing.markName).length : ℚ) * (idx : ℚ) :=
      mul_nonneg (div_nonneg h1 h2.le) (Nat.cast_nonneg idx)
    show timing.timeSeconds ≤ timing.timeSeconds + _
    linarith

theorem expandWord_sorted (allLines : List LyricWithTimings) (lineIdx : Nat)
    (originTimings : List SyllableTiming) (wordIdx : Nat)
    (timing : SyllableTiming) :
    TimeSorted (expandWord allLines lineIdx originTimings wordIdx timing) := by
  unfold TimeSorted
  by_cases hk : (syllablesOf timing.markName).length ≤ 1
  · simp [expandWord, hk]
  · simp only [expandWord, hk, if_false]
    refine List.pairwise_iff_get.mpr ?_
    intro a b hab
    rw [List.get_eq_getElem, List.get_eq_getElem, List.getElem_mapIdx,
      List.getElem_mapIdx]
    have h1 : (0 : ℚ) ≤ max 0 (resolveEnd allLines lineIdx originTimings
        wordIdx timing.timeSeconds - timing.timeSeconds) := le_max_left _ _
    have h2 : (0 : ℚ) < ((syllablesOf timing.markName).length : ℚ) := by
      have : 0 < (syllablesOf timing.markName).length := by omega
      exact_mod_cast this
    have hcast : ((a : Nat) : ℚ) ≤ ((b : Nat) : ℚ) := by
      exact_mod_cast Nat.le_of_lt (Fin.lt_def.mp hab)
    have := mul_le_mul_of_nonneg_left hcast (div_nonneg h1 h2.le)
    show timing.timeSeconds + _ ≤ timing.timeSeconds + _
    linarith

theorem expandWord_time_ub (allLines : List LyricWithTimings) (lineIdx : Nat)
    (originTimings : List SyllableTiming) (wordIdx : Nat)
    (timing nextWord : SyllableTiming) (hs : TimeSorted originTimings)
    (hw : originTimings[wordIdx]? = some timing)
    (hn : originTimings[wordIdx + 1]? = some nextWord) :
    ∀ t ∈ expandWord allLines lineIdx originTimings wordIdx timing,
      t.timeSeconds ≤ nextWord.timeSeconds := by
  obtain ⟨hwlt, htm⟩ := List.getElem?_eq_some_iff.mp hw
  obtain ⟨hnlt, htn⟩ := List.getElem?_eq_some_iff.mp hn
  have hse : timing.timeSeconds ≤ nextWord.timeSeconds := by
    have := List.pairwise_iff_get.mp hs ⟨wordIdx, hwlt⟩ ⟨wordIdx + 1, hnlt⟩
      (Fin.lt_def.mpr (Nat.lt_succ_self wordIdx))
    simpa [List.get_eq_getElem, htm, htn] using this
  by_cases hk : (syllablesOf timing.markName).length ≤ 1
  · simp only [expandWord, hk, if_true]
    intro t ht
    simp only [List.mem_singleton] at ht
    subst ht
    exact hse
  · simp only [expandWord, hk, if_false]
    have hre : resolveEnd allLines lineIdx originTimings wordIdx
        timing.timeSeconds = nextWord.timeSeconds := by
      simp [resolveEnd, hn]
    refine forall_mem_mapIdx _ _ _ ?_
    intro idx a ha
    have hidx : idx < (syllablesOf timing.markName).length :=
      (List.getElem?_eq_some_iff.mp ha).choose
    have h2 : (0 : ℚ) < ((syllablesOf timing.markName).length : ℚ) := by
      have : 0 < (syllablesOf timing.markName).length := by omega
      exact_mod_cast this
    rw [hre]
    have hmax : max 0 (nextWord.timeSeconds - timing.timeSeconds) =
        nextWord.timeSeconds - timing.timeSeconds :=
      max_eq_right (by linarith)
    rw [hmax]
    have hidxle : ((idx : Nat) : ℚ) ≤
        (((syllablesOf timing.markName).length : Nat) : ℚ) := by
      exact_mod_cast Nat.le_of_lt hidx
    have hmul : (nextWord.timeSeconds - timing.timeSeconds) /
          ((syllablesOf timing.markName).length : ℚ) * (idx : ℚ) ≤
        (nextWord.timeSeconds - timing.timeSeconds) /
          ((syllablesOf timing.markName).length : ℚ) *
          ((syllablesOf timing.markName).length : ℚ) :=
      mul_le_mul_of_nonneg_left hidxle (div_nonneg (by linarith) h2.le)
    have hcancel : (nextWord.timeSeconds - timing.timeSeconds) /
          ((syllablesOf timing.markName).length : ℚ) *
          ((syllablesOf timing.markName).length : ℚ) =
        nextWord.timeSeconds - timing.timeSeconds :=
      div_mul_cancel₀ _ (ne_of_gt h2)
    show timing.timeSeconds + _ ≤ nextWord.timeSeconds
    linarith

theorem interpolateLine_sorted (allLines : List LyricWithTimings)
    (lineIdx : Nat) (r : LyricWithTimings) (hs : TimeSorted r.timings) :
    TimeSorted (interpolateLine allLines lineIdx r).timings := by
  unfold TimeSorted
  simp only [interpolateLine]
  rw [List.pairwise_flatten]
  constructor
  · intro l hl
    obtain ⟨w, hw, rfl⟩ := List.mem_mapIdx.mp hl
    exact expandWord_sorted allLines lineIdx r.timings w _
  · refine List.pairwise_iff_get.mpr ?_
    intro a b hab
    rw [List.get_eq_getElem, List.get_eq_getElem, List.getElem_mapIdx,
      List.getElem_mapIdx]
    intro x hx y hy
    have hablt : (a : Nat) < (b : Nat) := Fin.lt_def.mp hab
    have hb : (b : Nat) < r.timings.length := by simpa using b.isLt
    have ha1 : (a : Nat) + 1 < r.timings.length := by omega
    have hla : (a : Nat) < r.timings.length := by omega
    have hub := expandWord_time_ub allLines lineIdx r.timings a
      (r.timings[(a : Nat)]) (r.timings[(a : Nat) + 1]) hs
      (List.getElem?_eq_getElem hla) (List.getElem?_eq_getElem ha1) x hx
    have hmono := timeSorted_get_mono r.timings hs ⟨(a : Nat) + 1, ha1⟩
      ⟨(b : Nat), hb⟩ (Nat.succ_le_of_lt hablt)
    have hlb := expandWord_time_lb allLines lineIdx r.timings b
      (r.timings[(b : Nat)]) y hy
    simp only [List.get_eq_getElem] at hmono
    exact le_trans hub (le_trans hmono hlb)

theorem interpolate_sorted (x : List LyricWithTimings)
    (h : ∀ r ∈ x, TimeSorted r.timings) :
    ∀ r ∈ interpolate x, TimeSorted r.timings := by
  intro r hr
  rw [interpolate] at hr
  obtain ⟨j, hj, rfl⟩ := List.mem_mapIdx.mp hr
  exact interpolateLine_sorted x j x[j] (h _ (List.getElem_mem hj))

theorem seg_foldl_sorted (lyrics : List LyricLineRow)
    (tokens : List PythonTimingResult) :
    ∀ st : SegState,
      tokens.Pairwise (fun a b => a.start ≤ b.start) →
      TimeSorted st.buffer →
      (∀ b ∈ st.buffer, ∀ t ∈ tokens, b.timeSeconds ≤ t.start) →
      (∀ r ∈ st.results, TimeSorted r.timings) →
      (∀ r ∈ (tokens.foldl (segStep lyrics) st).results, TimeSorted r.timings) ∧
        TimeSorted (tokens.foldl (segStep lyrics) st).buffer := by
  induction tokens with
  | nil => intro st _ h2 _ h4; exact ⟨h4, h2⟩
  | cons t ts ih =>
    intro st hpw h2 h3 h4
    rw [List.pairwise_cons] at hpw
    obtain ⟨hthead, hts⟩ := hpw
    rw [List.foldl_cons]
    by_cases hsep : t.word = LINE_SEPARATOR
    · have hstep : segStep lyrics st t =
          ⟨st.results ++ (match lyrics[st.lineIndex]? with
            | some row => [mkLineResult row st.buffer]
            | none => []), [], st.lineIndex + 1⟩ := by
        simp [segStep, hsep]
      rw [hstep]
      refine ih _ hts (by simp [TimeSorted]) (by simp) ?_
      intro r hr
      rcases List.mem_append.mp hr with hr | hr
      · exact h4 r hr
      · rcases hidx : lyrics[st.lineIndex]? with - | row <;> rw [hidx] at hr
        · simp at hr
        · simp only [List.mem_singleton] at hr
          subst hr
          exact h2
    · by_cases hempty : t.word.isEmpty
      · have hstep : segStep lyrics st t = st := by
          simp [segStep, hsep, hempty]
        rw [hstep]
        exact ih st hts h2
          (fun b hb u hu => h3 b hb u (by simp [hu])) h4
      · have hstep : segStep lyrics st t =
            ⟨st.results, st.buffer ++ [⟨t.start, t.word⟩], st.lineIndex⟩ := by
          simp [segStep, hsep, hempty]
        rw [hstep]
        refine ih _ hts ?_ ?_ h4
        · unfold TimeSorted
          rw [List.pairwise_append]
          refine ⟨h2, List.pairwise_singleton _ _, ?_⟩
          intro b hb c hc
          simp only [List.mem_singleton] at hc
          subst hc
          exact h3 b hb t (by simp)
        · intro b hb u hu
          rcases List.mem_append.mp hb with hb | hb
          · exact h3 b hb u (by simp [hu])
          · simp only [List.mem_singleton] at hb
            subst hb
            exact hthead u hu

/-- C8: when the timed-token stream is non-decreasing in `startSeconds`,
every line produced by the segmenter has non-decreasing `timeSeconds`, and
so does every line after the interpolation step. -/
theorem c8_time_ordered (lyrics : List LyricLineRow)
    (tokens : List PythonTimingResult)
    (hmono : tokens.Pairwise (fun a b => a.start ≤ b.start)) :
    (∀ r ∈ segment lyrics tokens, TimeSorted r.timings) ∧
    (∀ r ∈ interpolate (segment lyrics tokens), TimeSorted r.timings) := by
  have hseg : ∀ r ∈ segment lyrics tokens, TimeSorted r.timings := by
    unfold segment
    obtain ⟨hres, hbuf⟩ := seg_foldl_sorted lyrics tokens ⟨[], [], 0⟩ hmono
      (by simp [TimeSorted]) (by simp) (by simp)
    intro r hr
    rcases List.mem_append.mp hr with hr | hr
    · exact hres r hr
    · set st := tokens.foldl (segStep lyrics) ⟨[], [], 0⟩ with hst
      by_cases hb : st.buffer.isEmpty
      · rw [hb] at hr
        simp at hr
      · rw [Bool.not_eq_true] at hb
        rw [hb] at hr
        rcases hidx : lyrics[st.lineIndex]? with - | row <;> rw [hidx] at hr
        · simp at hr
        · simp only [Bool.not_false, if_true, List.mem_singleton] at hr
          subst hr
          exact hbuf
  exact ⟨hseg, interpolate_sorted _ hseg⟩

/-- Witness for C8 at a concrete sorted stream. -/
theorem c8_time_ordered_witness :
    TimeSorted (mkLineResult ⟨"가".data⟩ [⟨1, "가".data⟩]).timings :=
  (c8_time_ordered [⟨"가".data⟩] [⟨"가".data, (1 : ℚ), 2⟩]
    (List.pairwise_singleton _ _)).1
    (mkLineResult ⟨"가".data⟩ [⟨1, "가".data⟩])
    (show mkLineResult ⟨"가".data⟩ [⟨1, "가".data⟩] ∈
        segment [⟨"가".data⟩] [⟨"가".data, (1 : ℚ), 2⟩] from
      List.mem_singleton.mpr rfl)

end SongTiming
